import Mathlib

/-!
Verification of the cherry-pick GitHub-App event-processing engine
(`gh-app-cherry-pick-poc`).  The Go sources are shallowly embedded:

* Go strings are modelled as `List Char` (rune sequences); where the Go
  code measures *bytes* (`len`, slicing) the model computes the UTF-8
  byte length of the rune sequence explicitly.
* The GitHub REST API and the git subprocess are modelled as oracles
  (function-valued fields of a record), and the orchestrator is a pure
  function from those oracles to a list of observable effects
  (comments posted, cherry-pick invocations, pull requests created,
  pull requests closed, refs deleted).

Each embedded definition carries a note naming the Go function it was
translated from.
-/

set_option maxRecDepth 8192

namespace GhApp

/-- Strings are modelled as their rune sequence. -/
abbrev Str := List Char

/-- Conversion from a Lean string literal to the rune-sequence model. -/
def str (s : String) : Str := s.data

/-- `unicode.IsSpace` (Go): the Unicode White_Space property, used by
`strings.TrimSpace` and `strings.Fields`. -/
def isGoSpace (c : Char) : Bool :=
  c.toNat = 9 ∨ c.toNat = 10 ∨ c.toNat = 11 ∨ c.toNat = 12 ∨ c.toNat = 13 ∨
  c.toNat = 32 ∨ c.toNat = 0x85 ∨ c.toNat = 0xA0 ∨ c.toNat = 0x1680 ∨
  (0x2000 ≤ c.toNat ∧ c.toNat ≤ 0x200A) ∨
  c.toNat = 0x2028 ∨ c.toNat = 0x2029 ∨ c.toNat = 0x202F ∨
  c.toNat = 0x205F ∨ c.toNat = 0x3000

/-- The character class `\s` of Go's `regexp` package: `[\t\n\f\r ]`. -/
def isReSpace (c : Char) : Bool :=
  c.toNat = 9 ∨ c.toNat = 10 ∨ c.toNat = 12 ∨ c.toNat = 13 ∨ c.toNat = 32

/-- `strings.TrimSpace` (Go): drop leading and trailing Unicode whitespace. -/
def goTrimSpace (s : Str) : Str :=
  ((s.dropWhile isGoSpace).reverse.dropWhile isGoSpace).reverse

/-- `strings.TrimPrefix` (Go): remove one leading occurrence of `p`, if present. -/
def trimPfx (p s : Str) : Str :=
  if p.isPrefixOf s then s.drop p.length else s

/-- `strings.Contains` (Go): does `sub` occur as a contiguous substring of `s`?
Implemented as a scan trying `isPrefixOf` at every position. -/
def containsSub (s sub : Str) : Bool :=
  if sub.isPrefixOf s then true
  else
    match s with
    | [] => false
    | _ :: t => containsSub t sub

/-- `strings.ReplaceAll(s, "/", "-")` (Go) for the single-character
pattern used by the work-branch naming: replace every slash by a dash. -/
def replaceSlashDash (s : Str) : Str :=
  s.map (fun c => if c = '/' then '-' else c)

/-- The de-duplication loop of `ParseTargetBranches` (Go
`internal/cherry/labels.go`): a `seen` set accumulated left to right,
keeping first occurrences. -/
def dedupeGo (seen : List Str) : List Str → List Str
  | [] => []
  | x :: xs => if x ∈ seen then dedupeGo seen xs else x :: dedupeGo (x :: seen) xs

theorem containsSub_iff_isInfix (s sub : Str) :
    containsSub s sub = true ↔ sub <:+: s := by
  induction s with
  | nil =>
    rw [containsSub]
    constructor
    · intro h
      have h2 : sub.isPrefixOf ([] : Str) = true := by
        by_cases hp : sub.isPrefixOf ([] : Str)
        · exact hp
        · simp [hp] at h
      have h3 : sub <+: ([] : Str) := List.isPrefixOf_iff_prefix.mp h2
      exact h3.isInfix
    · intro h
      have h2 : sub = [] := List.eq_nil_of_infix_nil h
      subst h2
      simp
  | cons a t ih =>
    rw [containsSub]
    cases hp : sub.isPrefixOf (a :: t) with
    | true =>
      simp only [if_true, true_iff]
      exact (List.isPrefixOf_iff_prefix.mp hp).isInfix
    | false =>
      simp only [Bool.false_eq_true, if_false, ih]
      constructor
      · intro h
        exact h.trans (List.infix_cons (List.infix_refl t))
      · intro h
        rcases (List.infix_cons_iff).mp h with h1 | h2
        · have := List.isPrefixOf_iff_prefix.mpr h1
          rw [hp] at this
          exact absurd this (by simp)
        · exact h2

theorem dedupeGo_nodup (seen l : List Str) :
    (dedupeGo seen l).Nodup ∧ ∀ x ∈ dedupeGo seen l, x ∉ seen := by
  induction l generalizing seen with
  | nil => simp [dedupeGo]
  | cons a t ih =>
    rw [dedupeGo]
    by_cases ha : a ∈ seen
    · simpa [ha] using ih seen
    · simp only [ha, if_false]
      obtain ⟨hnd, hmem⟩ := ih (a :: seen)
      refine ⟨List.nodup_cons.mpr ⟨fun hc => ?_, hnd⟩, ?_⟩
      · exact (hmem a hc) (List.mem_cons_self a seen)
      · intro x hx
        rcases List.mem_cons.mp hx with rfl | hx2
        · exact ha
        · intro hxs
          exact (hmem x hx2) (List.mem_cons_of_mem a hxs)

theorem dedupeGo_sublist (seen l : List Str) :
    (dedupeGo seen l).Sublist l := by
  induction l generalizing seen with
  | nil => simp [dedupeGo]
  | cons a t ih =>
    rw [dedupeGo]
    by_cases ha : a ∈ seen
    · simpa [ha] using (ih seen).trans (List.sublist_cons_self a t)
    · simpa [ha] using (ih (a :: seen)).cons₂ a

theorem dedupeGo_mem (seen l : List Str) (x : Str) :
    x ∈ dedupeGo seen l ↔ x ∈ l ∧ x ∉ seen := by
  induction l generalizing seen with
  | nil => simp [dedupeGo]
  | cons a t ih =>
    rw [dedupeGo]
    by_cases ha : a ∈ seen
    · simp only [ha, if_true, ih, List.mem_cons]
      constructor
      · rintro ⟨hx, hs⟩
        exact ⟨Or.inr hx, hs⟩
      · rintro ⟨hx | hx, hs⟩
        · subst hx; exact absurd ha hs
        · exact ⟨hx, hs⟩
    · simp only [ha, if_false, List.mem_cons, ih, List.mem_cons]
      constructor
      · rintro (rfl | ⟨hx, hs⟩)
        · exact ⟨Or.inl rfl, ha⟩
        · exact ⟨Or.inr hx, fun hc => hs (Or.inr hc)⟩
      · rintro ⟨rfl | hx, hs⟩
        · exact Or.inl rfl
        · by_cases hxa : x = a
          · exact Or.inl hxa
          · exact Or.inr ⟨hx, by simp [hxa, hs]⟩

/-! ## Label grammar (`internal/cherry/labels.go`)

The regular expression

  `(?i)^\s*cherry[\s-]?pick\s+to\s+(.+?)\s*$`

is embedded as a deterministic matcher.  Determinism is justified case by
case: after the literal `cherry`, the optional class `[\s-]?` consumes a
character exactly when that character is in the class (the following
literal starts with `p`, which is not in the class, so no backtracking
point survives); the `\s+` runs are maximal because the following
literals start with non-space characters; and the lazy capture
`(.+?)\s*$` equals the remaining text with its maximal trailing run of
`\s` characters removed (nonempty, or the match fails). -/

/-- Case-insensitive literal consumption: `lit` is given in lowercase and
matched against the head of `s` under `(?i)`. Returns the rest of `s`. -/
def stripLit (lit : Str) (s : Str) : Option Str :=
  match lit, s with
  | [], rest => some rest
  | _ :: _, [] => none
  | c :: lt, d :: st => if d.toLower = c then stripLit lt st else none

/-- `\s+` of the label regex: require at least one regex-space, then
consume the maximal run. -/
def reqSpaces (s : Str) : Option Str :=
  match s with
  | [] => none
  | c :: rest => if isReSpace c then some (rest.dropWhile isReSpace) else none

/-- Remove the maximal trailing run of characters satisfying `p`. -/
def dropTrailing (p : Char → Bool) (s : Str) : Str :=
  (s.reverse.dropWhile p).reverse

/-- The optional class `[\s-]?` between `cherry` and `pick`: consume one
character exactly when it is in the class (the following literal starts
with `p`, which is not in the class, so this is the regex's only
surviving alternative). -/
def optClass (s : Str) : Str :=
  match s with
  | c :: rest => if isReSpace c || c = '-' then rest else c :: rest
  | [] => []

/-- The matcher for `reCherryTo` (`internal/cherry/labels.go`): on success
returns the capture group (the branch-list text). -/
def matchCherryTo (s : Str) : Option Str :=
  (stripLit (str "cherry") (s.dropWhile isReSpace)).bind fun s1 =>
    (stripLit (str "pick") (optClass s1)).bind fun s3 =>
      (reqSpaces s3).bind fun s4 =>
        (stripLit (str "to") s4).bind fun s5 =>
          (reqSpaces s5).bind fun s6 =>
            let cap := dropTrailing isReSpace s6
            if cap = [] then none else some cap

/-- `strings.Split(s, ",")` for the single-character separator. -/
def splitOnChar (sep : Char) : Str → List Str
  | [] => [[]]
  | c :: t =>
    if c = sep then [] :: splitOnChar sep t
    else
      match splitOnChar sep t with
      | [] => [[c]]
      | h :: r => (c :: h) :: r

/-- `strings.Fields` (Go): the maximal runs of non-whitespace characters. -/
def fields : Str → List Str
  | [] => []
  | c :: t =>
    if isGoSpace c then fields t
    else
      match fields t, t with
      | [], _ => [[c]]
      | h :: r, [] => [c] :: h :: r
      | h :: r, d :: _ => if isGoSpace d then [c] :: h :: r else (c :: h) :: r

/-- `splitBranches` (Go `internal/cherry/labels.go`): split the captured
text by commas, trim each part, and split the remainder on whitespace. -/
def splitBranches (s : Str) : List Str :=
  ((splitOnChar ',' s).map (fun part => fields (goTrimSpace part))).flatten

/-- The candidates one label contributes in `ParseTargetBranches` (Go):
`none` models a nil label or nil name; each raw candidate is trimmed,
stripped of one leading `refs/heads/`, and dropped if empty. -/
def labelCandidates (l : Option Str) : List Str :=
  match l with
  | none => []
  | some name =>
    match matchCherryTo (goTrimSpace name) with
    | none => []
    | some cap =>
      ((splitBranches cap).map
        (fun br => trimPfx (str "refs/heads/") (goTrimSpace br))).filter
        (fun br => decide (br ≠ []))

/-- `ParseTargetBranches` (Go `internal/cherry/labels.go`).  The Go code
runs two nested loops sharing one `seen` set; that equals de-duplicating
the concatenated candidate stream with first occurrences kept. -/
def ParseTargetBranches (labels : List (Option Str)) : List Str :=
  dedupeGo [] ((labels.map labelCandidates).flatten)

theorem parse_single :
    ParseTargetBranches [some (str "cherry-pick to devops-release/0021")] =
      [str "devops-release/0021"] := by decide

theorem parse_case_insensitive :
    ParseTargetBranches [some (str "ChErRy-PiCk To devops-release/0022")] =
      [str "devops-release/0022"] := by decide

theorem parse_refs_heads :
    ParseTargetBranches [some (str "cherry pick to refs/heads/devops-release/0030")] =
      [str "devops-release/0030"] := by decide

theorem parse_comma_separated :
    ParseTargetBranches [some (str "cherry-pick to devops-release/0021, devops-release/0022")] =
      [str "devops-release/0021", str "devops-release/0022"] := by decide

theorem parse_dedupe :
    ParseTargetBranches [some (str "cherry-pick to devops-release/0021"),
        some (str "cherry-pick to devops-release/0021")] =
      [str "devops-release/0021"] := by decide

theorem parse_ignore_others :
    ParseTargetBranches [some (str "bug"), some (str "enhancement"),
        some (str "cherrypick to devops-release/0042")] =
      [str "devops-release/0042"] := by decide

/-! ## Work-branch naming and the Git Work Executor
(`internal/cherry/runner.go`)

Go measures string length in bytes; the SHA strings handled here are
ASCII hex, for which bytes and runes coincide, so `List.length` and
`List.take` model `len` and slicing faithfully on this domain. -/

/-- Decimal rendering of a number, as Go `fmt` produces for `%d`. -/
def natToStr (n : Nat) : Str := (toString n).data

/-- The work-branch name as the Orchestrator computes it for its
idempotency check (`processMergedPRWith`, handler lines 392-408):
`short` is the first seven characters of the SHA (all of it when it is
no longer than seven), and the target has each slash replaced by a
dash. -/
def workBranchOrch (target sha : Str) : Str :=
  let short := if 7 < sha.length then sha.take 7 else sha
  str "autocherry/" ++ replaceSlashDash target ++ str "/" ++ short

/-- The work-branch name as the Git Work Executor builds and pushes it
(`doCherryPick`, runner.go lines 82-87). -/
def workBranchRunner (target sha : Str) : Str :=
  let short := if 7 < sha.length then sha.take 7 else sha
  str "autocherry/" ++ replaceSlashDash target ++ str "/" ++ short

/-- `isNoopCherryPickErr` (runner.go lines 39-47): `none` models a nil
error; otherwise the error text is scanned for the three known git
no-op messages. -/
def isNoopCherryPickErr (e : Option Str) : Bool :=
  match e with
  | none => false
  | some s =>
    containsSub s (str "previous cherry-pick is now empty") ||
    containsSub s (str "nothing to commit") ||
    containsSub s (str "working tree clean")

/-- Oracle for the git subprocess runner used by `doCherryPick`: each
field is the error (`none` = success) the corresponding git step would
report.  `cherryErr` is the text of the git cherry-pick failure. -/
structure GitR where
  cloneErr : Option Str
  configErr : Option Str
  fetchErr : Option Str
  checkoutErr : Option Str
  cherryErr : Option Str
  pushErr : Option Str

/-- Result of one cherry-pick attempt: a pushed work branch,
the distinguished `ErrNoopCherryPick`, or any other error. -/
inductive CPResult where
  | ok (workBranch : Str)
  | noop
  | err (msg : Str)
deriving DecidableEq

/-- `doCherryPick` (runner.go lines 59-119) over the git oracle.
`mainline = 0` models the plain `DoCherryPick` entry point and
`mainline > 0` models `DoCherryPickWithMainline`, as in the source. -/
def doCherryPick (g : GitR) (target sha : Str) (mainline : Nat) : CPResult :=
  match g.cloneErr with
  | some e => .err e
  | none =>
  match g.configErr with
  | some e => .err e
  | none =>
  match g.fetchErr with
  | some e => .err e
  | none =>
  match g.checkoutErr with
  | some e => .err e
  | none =>
  match g.cherryErr with
  | some e =>
    if isNoopCherryPickErr (some e) then .noop
    else if 0 < mainline then
      .err (str "conflict cherry-picking " ++ sha ++ str " to " ++ target ++
        str " (mainline " ++ natToStr mainline ++ str "): " ++ e)
    else
      .err (str "conflict cherry-picking " ++ sha ++ str " to " ++ target ++ str ": " ++ e)
  | none =>
  match g.pushErr with
  | some e => .err e
  | none => .ok (workBranchRunner target sha)

/-! ## The Cherry-Pick Orchestrator (`processMergedPRWith`, part of the
queue processor) -/

/-- An open pull request as returned by the filtered list call. -/
structure PRRef where
  number : Nat
  url : Str
deriving DecidableEq

/-- Result of `PR().Create`. -/
inductive CreateRes where
  | ok (url : Str)
  | err (msg : Str)
deriving DecidableEq

/-- A Go error as the GitHub client surfaces it: either a
`github.ErrorResponse` carrying an HTTP status, or any other error. -/
inductive GoErr where
  | ghResp (status : Nat) (msg : Str)
  | plain (msg : Str)
deriving DecidableEq

/-- `isNotFound` (handler lines 742-745): an `ErrorResponse` with
status 404. -/
def isNotFound (e : GoErr) : Bool :=
  match e with
  | .ghResp status _ => status = 404
  | .plain _ => false

/-- Oracle for the GitHub capability interface consumed by the
orchestrator.  `getRefOk r` is whether `Git().GetRef` on ref `r`
succeeds; `listOpen head base` is `PR().List(state=open, head, base)`;
`parents sha` is `Repos().GetCommit` (`none` = error or nil commit);
`create head base` is `PR().Create`; `deleteRef r` is
`Git().DeleteRef` (`none` = success). -/
structure GH where
  getRefOk : Str → Bool
  listOpen : Str → Str → Except Str (List PRRef)
  parents : Str → Option Nat
  create : Str → Str → CreateRes
  deleteRef : Str → Option GoErr

/-- Observable side effects of one processing pass: comments posted on
the source PR, cherry-pick invocations handed to the Git Work Executor
(with the mainline argument chosen by `realCherryRunner.Pick`),
pull-request creations, pull-request closures, and ref deletions. -/
inductive Effect where
  | comment (body : Str)
  | pickInvoke (target sha : Str) (mainline : Option Nat)
  | createPR (head base : Str)
  | closePR (number : Nat)
  | delRef (ref : Str)
deriving DecidableEq

/-- Comment body for a missing target branch. -/
def commentTargetMissing (target : Str) : Str :=
  str "⚠️ Target branch `" ++ target ++ str "` not found; skipping auto cherry-pick."

/-- Comment body when an auto-cherry-pick PR is already open. -/
def commentAlreadyOpen (target url : Str) : Str :=
  str "ℹ️ Auto cherry-pick to `" ++ target ++ str "` is already open: " ++ url

/-- Comment body when the work branch exists but no PR is open. -/
def commentBranchExists (workBranch target : Str) : Str :=
  str "ℹ️ Work branch `" ++ workBranch ++ str "` already exists for `" ++ target ++
    str "`; skipping duplicate cherry-pick."

/-- Comment body for the distinguished no-op outcome. -/
def commentNoop (target : Str) : Str :=
  str "ℹ️ Auto cherry-pick to `" ++ target ++
    str "`: no changes needed on target (commit already present or empty diff). Skipping PR."

/-- Comment body for a conflict or other cherry-pick failure. -/
def commentConflict (target sha detail : Str) : Str :=
  str "⚠️ Auto cherry-pick to `" ++ target ++
    str "` failed. Please create a patch branch from `" ++ target ++
    str "` and cherry-pick `" ++ sha ++ str "` manually.\n\nDetails: `" ++ detail ++ str "`"

/-- Comment body when pull-request creation fails after a push. -/
def commentCreateFailed (target errMsg : Str) : Str :=
  str "⚠️ Auto cherry-pick to `" ++ target ++ str "`: failed to open PR: " ++ errMsg

/-- Comment body announcing the opened pull request. -/
def commentOpened (target url : Str) : Str :=
  str "✅ Auto cherry-pick to `" ++ target ++ str "` opened: " ++ url

/-- Comment body when the merged commit SHA cannot be determined. -/
def commentShaMissing (prNum : Nat) (errText : Str) : Str :=
  str "⚠️ Could not determine merged commit SHA for PR #" ++ natToStr prNum ++
    str ": " ++ errText

/-- The merged pull request as loaded via `PR().Get`, together with the
outcome `commits` of a potential `PR().ListCommits` fallback call
(`.error` = API failure). -/
structure PRData where
  number : Nat
  title : Str
  mergeCommitSHA : Str
  labels : List (Option Str)
  commits : Except Str (List Str)

/-- Merge-SHA resolution (handler lines 371-382 and 255-269): prefer the
recorded merge-commit SHA, else the last commit of the PR. -/
def resolveMergeSHA (pr : PRData) : Option Str :=
  if pr.mergeCommitSHA ≠ [] then some pr.mergeCommitSHA
  else
    match pr.commits with
    | .error _ => none
    | .ok l => l.getLast?

/-- Rendering of `%v` of the `ListCommits` error in the SHA-missing
comment (`<nil>` when the list call succeeded but returned no commits). -/
def shaErrText (commits : Except Str (List Str)) : Str :=
  match commits with
  | .error e => e
  | .ok _ => str "<nil>"

/-- One iteration of the per-target loop of `processMergedPRWith`
(handler lines 398-474).  `pick` is the injected `CherryPickRunner`;
the recorded mainline argument is the one `realCherryRunner.Pick`
(lines 757-762) passes on: parent `1` when the commit was classified a
merge, no mainline otherwise. -/
def processTarget (gh : GH) (pick : Str → Str → Bool → CPResult)
    (owner : Str) (isMerge : Bool) (sha : Str) (target : Str) : List Effect :=
  if ¬ gh.getRefOk (str "refs/heads/" ++ target) then
    [.comment (commentTargetMissing target)]
  else
    if gh.getRefOk (str "refs/heads/" ++ workBranchOrch target sha) then
      match (gh.listOpen (owner ++ str ":" ++ workBranchOrch target sha) target).toOption.getD [] with
      | p :: _ => [.comment (commentAlreadyOpen target p.url)]
      | [] => [.comment (commentBranchExists (workBranchOrch target sha) target)]
    else
      .pickInvoke target sha (if isMerge then some 1 else none) ::
      match pick target sha isMerge with
      | .noop => [.comment (commentNoop target)]
      | .err msg => [.comment (commentConflict target sha msg)]
      | .ok wb =>
        .createPR wb target ::
        match gh.create wb target with
        | .err msg => [.comment (commentCreateFailed target msg)]
        | .ok url => [.comment (commentOpened target url)]

/-- The topology classification of handler lines 386-390:
`isMerge := (err == nil && rc != nil && len(rc.Parents) > 1)`. -/
def classifyMerge (gh : GH) (sha : Str) : Bool :=
  match gh.parents sha with
  | some n => decide (1 < n)
  | none => false

/-- `processMergedPRWith` (handler lines 336-475): resolve targets
(override or parsed labels), resolve the merge SHA, classify topology,
and run the per-target loop.  The effect list concatenates the
per-target effect lists in target order. -/
def processMergedPRWith (gh : GH) (pick : Str → Str → Bool → CPResult)
    (owner : Str) (pr : PRData) (targetsOverride : List Str) : List Effect :=
  let targets := if targetsOverride ≠ [] then targetsOverride
    else ParseTargetBranches pr.labels
  if targets = [] then []
  else
    match resolveMergeSHA pr with
    | none => [.comment (commentShaMissing pr.number (shaErrText pr.commits))]
    | some sha =>
      (targets.map (processTarget gh pick owner (classifyMerge gh sha) sha)).flatten

/-! ## Unlabel reversal (`processUnlabeled` and its caller) -/

/-- `processUnlabeled` (handler lines 702-725): close every open PR with
head exactly `owner:workBranch` and base `target`, then delete the
work-branch ref; a 404 on the delete is treated as already-clean, any
other delete error is returned.  The result pairs the recorded effects
with the returned error (`none` = nil). -/
def processUnlabeled (gh : GH) (owner target workBranch : Str) :
    List Effect × Option GoErr :=
  match gh.listOpen (owner ++ str ":" ++ workBranch) target with
  | .error e => ([], some (.plain e))
  | .ok prs =>
    let effs := prs.map (fun p => Effect.closePR p.number) ++
      [Effect.delRef (str "refs/heads/" ++ workBranch)]
    match gh.deleteRef (str "refs/heads/" ++ workBranch) with
    | none => (effs, none)
    | some e => if isNotFound e then (effs, none) else (effs, some e)

/-- Comment posted after a successful unlabel cleanup (handler
lines 281-283). -/
def commentUnlabelDone (target workBranch : Str) : Str :=
  str "ℹ️ Removed label for `" ++ target ++
    str "`: closed any open auto-cherry-pick PR and deleted work branch `" ++
    workBranch ++ str "`."

/-- Merge-SHA resolution of the unlabeled path (handler lines 260-266):
the PR's recorded merge SHA, else the last commit's SHA with the list
error ignored (`commits, _, _ :=`); the empty string when both are
unavailable. -/
def resolveMergeSHAUnlabel (pr : PRData) : Str :=
  if pr.mergeCommitSHA ≠ [] then pr.mergeCommitSHA
  else
    match pr.commits with
    | .ok l => (l.getLast?).getD []
    | .error _ => []

/-- The `unlabeled` branch of `handlePREvent` (handler lines 243-285):
parse the removed label, resolve the merge SHA with the last-commit
fallback, return with no effects when it is still empty (lines
267-269), recompute the deterministic work-branch name (lines 270-277
inline the same `autocherry/<target-with-dashes>/<short-sha>` formula as
`workBranchOrch`), and run `processUnlabeled` per target; on success an
informational comment is posted, on failure only a log line is
emitted. -/
def handleUnlabeled (gh : GH) (owner : Str) (pr : PRData) (eventLabel : Option Str) :
    List Effect :=
  let targets := ParseTargetBranches [eventLabel]
  if targets = [] then []
  else
    if resolveMergeSHAUnlabel pr = [] then []
    else
      (targets.map (fun target =>
        let workBranch := workBranchOrch target (resolveMergeSHAUnlabel pr)
        match processUnlabeled gh owner target workBranch with
        | (effs, some _) => effs
        | (effs, none) => effs ++ [.comment (commentUnlabelDone target workBranch)])).flatten

/-! ## Label retention (`enforceLabelRetention`, handler lines 535-586) -/

/-- The character class `[a-z0-9-]` of the retention regex. -/
def isFamChar (c : Char) : Bool :=
  ('a' ≤ c ∧ c ≤ 'z') ∨ ('0' ≤ c ∧ c ≤ '9') ∨ c = '-'

/-- The class `\d`. -/
def isDigitCh (c : Char) : Bool := '0' ≤ c ∧ c ≤ '9'

/-- Matcher for `^cherry-pick to ([a-z0-9-]+-release)/(\d+)$` (handler
line 544).  The family part has no slash and the digit part has no
slash, so a match decomposes the text after the fixed prefix at its
unique slash; the family must end in `-release` preceded by at least
one class character (hence length at least nine) and consist of class
characters throughout. -/
def retentionMatch (name : Str) : Option (Str × Str) :=
  if (str "cherry-pick to ").isPrefixOf name then
    match splitOnChar '/' (name.drop (str "cherry-pick to ").length) with
    | [fam, num] =>
      if fam.all isFamChar && (str "-release").isSuffixOf fam &&
          decide (8 < fam.length) && decide (num ≠ []) && num.all isDigitCh then
        some (fam, num)
      else none
    | _ => none
  else none

/-- Two's-complement wraparound of Go's 64-bit `int` (the build targets
`GOARCH=amd64`): map an integer into `[-2^63, 2^63)`. -/
def wrap64 (n : Int) : Int := (n + 2 ^ 63) % 2 ^ 64 - 2 ^ 63

/-- `parseInt` (handler lines 728-740): best-effort atoi, `-1` on the
empty string or any non-digit character.  The accumulator is Go's
`int`: 64 bits with wraparound on overflow, so a suffix of nineteen or
more digits can wrap (a negative result is then discarded by the
retention filter); for suffixes of up to eighteen digits the value is
the denoted number. -/
def parseIntGo (s : Str) : Int :=
  if s = [] then -1
  else if s.all isDigitCh then
    s.foldl (fun acc c => wrap64 (acc * 10 + (Int.ofNat c.toNat - 48))) 0
  else -1

/-- One bucket entry of the retention loop (handler lines 545-549). -/
structure RetItem where
  full : Str
  fam : Str
  n : Int
deriving DecidableEq

/-- The filtered item stream of the retention loop (handler
lines 552-567): labels matching the retention grammar with a
non-negative parsed numeric suffix. -/
def retentionItems (labels : List (Option Str)) : List RetItem :=
  labels.filterMap fun l =>
    match l with
    | none => none
    | some name =>
      match retentionMatch name with
      | none => none
      | some (fam, num) =>
        let n := parseIntGo num
        if n < 0 then none else some ⟨name, fam, n⟩

/-- One family's deletions in the retention loop (handler lines
569-582): sort the family's items ascending by numeric suffix and
delete everything before the newest `keepN`.  `sort.Slice` with the
`<` comparator is modelled by a stable insertion sort on the numeric
suffix, one admissible result of Go's unstable sort. -/
def famDeletions (items : List RetItem) (keepN : Nat) (fam : Str) : List Str :=
  if (items.filter (fun it => it.fam = fam)).length ≤ keepN then []
  else
    ((List.insertionSort (fun a b : RetItem => a.n ≤ b.n)
        (items.filter (fun it => it.fam = fam))).take
      ((items.filter (fun it => it.fam = fam)).length - keepN)).map (fun it => it.full)

/-- `enforceLabelRetention` (handler lines 535-586), returning the names
of the labels it deletes.  Go iterates the `buckets` map in an
unspecified order; families are modelled in first-seen order, which
fixes one admissible interleaving (the set of deleted labels does not
depend on it). -/
def enforceLabelRetention (labels : List (Option Str)) (keep : Int) : List Str :=
  if keep ≤ 0 then []
  else
    ((dedupeGo [] ((retentionItems labels).map (fun it => it.fam))).map
      (famDeletions (retentionItems labels) keep.toNat)).flatten

/-! ## Log sanitisation (`sanitizeForLog`, processor lines 44-70)

The Go function iterates runes, drops CR, LF, other control characters
except TAB and the U+2028/U+2029 separators, then caps the *byte*
length at 512, appending an ellipsis character.  The model keeps the
rune filter and performs the byte-level cap on the explicit UTF-8
encoding. -/

/-- The rune filter of `sanitizeForLog`: `true` when the rune is kept. -/
def keepRune (c : Char) : Bool :=
  if c = '\n' ∨ c = '\r' then false
  else if c.toNat < 0x20 ∧ c ≠ '\t' then false
  else if c.toNat = 0x2028 ∨ c.toNat = 0x2029 then false
  else true

/-- UTF-8 encoding of one scalar value. -/
def utf8Bytes (c : Char) : List Nat :=
  let n := c.toNat
  if n < 0x80 then [n]
  else if n < 0x800 then [192 + n / 64, 128 + n % 64]
  else if n < 0x10000 then [224 + n / 4096, 128 + n / 64 % 64, 128 + n % 64]
  else [240 + n / 262144, 128 + n / 4096 % 64, 128 + n / 64 % 64, 128 + n % 64]

/-- UTF-8 encoding of a rune sequence, as the byte string Go operates
on when it measures `len` and slices. -/
def encodeUtf8 (s : Str) : List Nat := (s.map utf8Bytes).flatten

/-- `sanitizeForLog` (processor lines 44-70), producing the byte string
of the sanitized result. -/
def sanitizeForLog (s : Str) : List Nat :=
  if s = [] then []
  else
    let out := encodeUtf8 (s.filter keepRune)
    if 512 < out.length then out.take 512 ++ encodeUtf8 (str "…") else out

/-! ## Shared concrete oracles for witnesses -/

/-- A git oracle on which every step succeeds. -/
def gitAllOk : GitR := ⟨none, none, none, none, none, none⟩

/-- A GitHub oracle: every ref exists, no open PRs, one-parent commits,
creation succeeds, deletes succeed. -/
def ghAllRefs : GH :=
  { getRefOk := fun _ => true
    listOpen := fun _ _ => .ok []
    parents := fun _ => some 1
    create := fun _ _ => .ok (str "https://example.test/pr/9")
    deleteRef := fun _ => none }

/-- A GitHub oracle: only plain branch refs exist, never `autocherry/`
work branches; commits have two parents; creation succeeds. -/
def ghFresh : GH :=
  { getRefOk := fun r => decide (¬ (str "refs/heads/autocherry/").isPrefixOf r)
    listOpen := fun _ _ => .ok []
    parents := fun _ => some 2
    create := fun _ _ => .ok (str "https://example.test/pr/10")
    deleteRef := fun _ => none }

/-- A runner oracle whose cherry-pick always succeeds. -/
def pickOk : Str → Str → Bool → CPResult :=
  fun target sha _ => .ok (workBranchRunner target sha)

/-- A runner oracle that always reports the no-op classification. -/
def pickNoop : Str → Str → Bool → CPResult := fun _ _ _ => .noop

/-! ## Helper lemmas about the per-target step -/

theorem processTarget_of_branchExists {gh : GH} {pick} {owner : Str} {im : Bool}
    {sha target : Str}
    (hT : gh.getRefOk (str "refs/heads/" ++ target) = true)
    (hW : gh.getRefOk (str "refs/heads/" ++ workBranchOrch target sha) = true) :
    processTarget gh pick owner im sha target =
      match (gh.listOpen (owner ++ str ":" ++ workBranchOrch target sha) target).toOption.getD [] with
      | p :: _ => [.comment (commentAlreadyOpen target p.url)]
      | [] => [.comment (commentBranchExists (workBranchOrch target sha) target)] := by
  unfold processTarget
  simp only [hT, hW, not_true_eq_false, if_false, if_true]

theorem mem_pickInvoke_processTarget {gh : GH} {pick} {owner : Str} {im : Bool}
    {sha target t s : Str} {m : Option Nat}
    (h : Effect.pickInvoke t s m ∈ processTarget gh pick owner im sha target) :
    t = target ∧ s = sha ∧ m = (if im then some 1 else none) := by
  unfold processTarget at h
  by_cases h1 : gh.getRefOk (str "refs/heads/" ++ target) = true
  · rw [if_neg (by simp [h1])] at h
    by_cases h2 : gh.getRefOk (str "refs/heads/" ++ workBranchOrch target sha) = true
    · rw [if_pos h2] at h
      split at h <;> simp at h
    · rw [if_neg h2] at h
      rcases List.mem_cons.mp h with h3 | h3
      · injection h3 with e1 e2 e3
        exact ⟨e1, e2, e3⟩
      · exfalso
        rcases hP : pick target sha im with wb | _ | msg <;> rw [hP] at h3 <;> simp at h3
        split at h3 <;> simp at h3
  · rw [if_pos (by simp [h1])] at h
    simp at h

theorem mem_createPR_processTarget {gh : GH} {pick} {owner : Str} {im : Bool}
    {sha target hd bs : Str}
    (h : Effect.createPR hd bs ∈ processTarget gh pick owner im sha target) :
    bs = target ∧ pick target sha im = .ok hd ∧
      gh.getRefOk (str "refs/heads/" ++ workBranchOrch target sha) = false := by
  unfold processTarget at h
  by_cases h1 : gh.getRefOk (str "refs/heads/" ++ target) = true
  · rw [if_neg (by simp [h1])] at h
    by_cases h2 : gh.getRefOk (str "refs/heads/" ++ workBranchOrch target sha) = true
    · rw [if_pos h2] at h
      split at h <;> simp at h
    · rw [if_neg h2] at h
      rcases List.mem_cons.mp h with h3 | h3
      · exact absurd h3 (by simp)
      · rcases hP : pick target sha im with wb | _ | msg <;> rw [hP] at h3 <;> simp at h3
        rcases h3 with ⟨e1, e2⟩ | h3
        · subst e1
          subst e2
          exact ⟨rfl, rfl, by simpa using h2⟩
        · exfalso
          split at h3 <;> simp at h3
  · rw [if_pos (by simp [h1])] at h
    simp at h

/-! ## C2: deterministic work-branch naming -/

/-- C2.  Work-branch naming is a pure function of (target, SHA): the
orchestrator's idempotency-check name equals the executor's pushed
name; the common value is `autocherry/` + the target with every slash
replaced by a dash + `/` + the first seven characters of the SHA (the
whole SHA when it is no longer than seven); and every successful run
of the Git Work Executor returns exactly that name. -/
theorem workbranch_naming_deterministic (target sha : Str) :
    workBranchOrch target sha = workBranchRunner target sha ∧
    workBranchRunner target sha =
      str "autocherry/" ++ target.map (fun c => if c = '/' then '-' else c) ++
        str "/" ++ (if sha.length ≤ 7 then sha else sha.take 7) ∧
    ∀ (g : GitR) (wb : Str) (m : Nat),
      doCherryPick g target sha m = .ok wb → wb = workBranchRunner target sha := by
  refine ⟨rfl, ?_, ?_⟩
  · unfold workBranchRunner replaceSlashDash
    by_cases h : 7 < sha.length
    · simp [h, Nat.not_le.mpr h]
    · simp [h, Nat.not_lt.mp h]
  · intro g wb m h
    unfold doCherryPick at h
    rcases h1 : g.cloneErr with _ | e <;> rw [h1] at h <;> simp at h
    rcases h2 : g.configErr with _ | e <;> rw [h2] at h <;> simp at h
    rcases h3 : g.fetchErr with _ | e <;> rw [h3] at h <;> simp at h
    rcases h4 : g.checkoutErr with _ | e <;> rw [h4] at h <;> simp at h
    rcases h5 : g.cherryErr with _ | e <;> rw [h5] at h <;> simp at h
    case none =>
      rcases h6 : g.pushErr with _ | e <;> rw [h6] at h <;> simp at h
      exact h.symm
    case some =>
      exfalso
      by_cases hn : isNoopCherryPickErr (some e) = true
      · rw [if_pos hn] at h
        exact CPResult.noConfusion h
      · rw [if_neg hn] at h
        by_cases hm : 0 < m
        · rw [if_pos hm] at h
          exact CPResult.noConfusion h
        · rw [if_neg hm] at h
          exact CPResult.noConfusion h

/-- Witness for C2 at a concrete (target, SHA) pair. -/
theorem workbranch_naming_deterministic_witness :
    workBranchOrch (str "devops-release/0021") (str "c001d00d1234567") =
      workBranchRunner (str "devops-release/0021") (str "c001d00d1234567") ∧
    str "autocherry/devops-release-0021/c001d00" =
      workBranchRunner (str "devops-release/0021") (str "c001d00d1234567") :=
  ⟨(workbranch_naming_deterministic _ _).1,
   (workbranch_naming_deterministic (str "devops-release/0021") (str "c001d00d1234567")).2.2
     gitAllOk (str "autocherry/devops-release-0021/c001d00") 0 (by decide)⟩

/-- Is an effect a posted comment? -/
def isCommentEff : Effect → Bool
  | .comment _ => true
  | _ => false

/-- A concrete merged PR carrying one cherry-pick label. -/
def prX : PRData :=
  { number := 7
    title := str "Fix the flux capacitor"
    mergeCommitSHA := str "c001d00d1234567"
    labels := [some (str "cherry-pick to devops-release/0021")]
    commits := .ok [] }

/-! ## C4: merge-vs-linear topology classification -/

/-- C4.  Every cherry-pick invocation of a pass uses the resolved SHA
and carries mainline parent 1 exactly when the fetched commit object
reports more than one parent (no mainline on one parent, a failed
fetch, or a nil commit); and a pass run with a failing classification
fetch produces the same effects as one whose commits report a single
parent — the failure degrades to "not a merge" and never terminates
the pass. -/
theorem topology_classification (gh : GH) (pick : Str → Str → Bool → CPResult)
    (owner : Str) (pr : PRData) (ov : List Str) (sha : Str)
    (h : resolveMergeSHA pr = some sha) :
    (∀ t s m, Effect.pickInvoke t s m ∈ processMergedPRWith gh pick owner pr ov →
      s = sha ∧
      m = (match gh.parents sha with
           | some n => if 1 < n then some 1 else none
           | none => none)) ∧
    processMergedPRWith { gh with parents := fun _ => none } pick owner pr ov =
      processMergedPRWith { gh with parents := fun _ => some 1 } pick owner pr ov := by
  constructor
  · intro t s m hm
    unfold processMergedPRWith at hm
    by_cases he : (if ov ≠ [] then ov else ParseTargetBranches pr.labels) = []
    · rw [if_pos he] at hm
      simp at hm
    · rw [if_neg he, h] at hm
      rw [List.mem_flatten] at hm
      obtain ⟨l, hl, hml⟩ := hm
      rw [List.mem_map] at hl
      obtain ⟨target, _, rfl⟩ := hl
      obtain ⟨_, h2, h3⟩ := mem_pickInvoke_processTarget hml
      refine ⟨h2, ?_⟩
      rw [h3]
      unfold classifyMerge
      rcases hp : gh.parents sha with _ | n
      · simp
      · by_cases hn : 1 < n <;> simp [hn]
  · rfl

/-- Witness for C4: with a two-parent commit the single invocation of
the pass carries mainline 1. -/
theorem topology_classification_witness :
    str "c001d00d1234567" = str "c001d00d1234567" ∧
    (some 1 : Option Nat) =
      (match ghFresh.parents (str "c001d00d1234567") with
       | some n => if 1 < n then some 1 else none
       | none => none) :=
  (topology_classification ghFresh pickOk (str "o") prX [] (str "c001d00d1234567")
      (by decide)).1
    (str "devops-release/0021") (str "c001d00d1234567") (some 1) (by decide)

/-! ## C5: the distinguished no-op outcome -/

/-- C5.  (i) A cherry-pick error is classified as the no-op outcome iff
its message contains one of the three exact git substrings (a nil error
never is).  (ii) The Git Work Executor returns the no-op classification
iff clone, config, fetch and checkout succeeded and the cherry-pick
step failed with a message matching that classifier.  (iii) A target
whose cherry-pick reports the no-op outcome produces exactly one
informational comment and no pull-request creation. -/
theorem noop_classification :
    (∀ e : Option Str, isNoopCherryPickErr e = true ↔
      ∃ s, e = some s ∧
        ((str "previous cherry-pick is now empty") <:+: s ∨
         (str "nothing to commit") <:+: s ∨
         (str "working tree clean") <:+: s)) ∧
    (∀ (g : GitR) (target sha : Str) (m : Nat),
      doCherryPick g target sha m = .noop ↔
        g.cloneErr = none ∧ g.configErr = none ∧ g.fetchErr = none ∧
        g.checkoutErr = none ∧
        ∃ e, g.cherryErr = some e ∧ isNoopCherryPickErr (some e) = true) ∧
    (∀ (gh : GH) (pick : Str → Str → Bool → CPResult) (owner : Str)
        (im : Bool) (sha target : Str),
      gh.getRefOk (str "refs/heads/" ++ target) = true →
      gh.getRefOk (str "refs/heads/" ++ workBranchOrch target sha) = false →
      pick target sha im = .noop →
      processTarget gh pick owner im sha target =
        [.pickInvoke target sha (if im then some 1 else none),
         .comment (commentNoop target)] ∧
      ((processTarget gh pick owner im sha target).filter isCommentEff).length = 1 ∧
      (∀ hd b, Effect.createPR hd b ∉ processTarget gh pick owner im sha target)) := by
  refine ⟨?_, ?_, ?_⟩
  · intro e
    rcases e with _ | s
    · simp [isNoopCherryPickErr]
    · simp [isNoopCherryPickErr, containsSub_iff_isInfix, or_assoc]
  · intro g target sha m
    rcases h1 : g.cloneErr with _ | e
    case some => simp [doCherryPick, h1]
    rcases h2 : g.configErr with _ | e
    case some => simp [doCherryPick, h1, h2]
    rcases h3 : g.fetchErr with _ | e
    case some => simp [doCherryPick, h1, h2, h3]
    rcases h4 : g.checkoutErr with _ | e
    case some => simp [doCherryPick, h1, h2, h3, h4]
    rcases h5 : g.cherryErr with _ | e
    case some =>
      by_cases hn : isNoopCherryPickErr (some e) = true
      · simp [doCherryPick, h1, h2, h3, h4, h5, hn]
      · by_cases hm : 0 < m <;> simp [doCherryPick, h1, h2, h3, h4, h5, hn, hm]
    rcases h6 : g.pushErr with _ | e <;>
      simp [doCherryPick, h1, h2, h3, h4, h5, h6]
  · intro gh pick owner im sha target hT hW hP
    have he : processTarget gh pick owner im sha target =
        [.pickInvoke target sha (if im then some 1 else none),
         .comment (commentNoop target)] := by
      unfold processTarget
      rw [if_neg (by simp [hT]), if_neg (by simp [hW]), hP]
    refine ⟨he, by rw [he]; rfl, ?_⟩
    intro hd b hmem
    rw [he] at hmem
    simp at hmem

/-- Witness for C5: the classifier fires on a concrete git message, the
executor classifies it as no-op, and the pass posts one informational
comment for it. -/
theorem noop_classification_witness :
    (isNoopCherryPickErr (some (str "On branch b: nothing to commit, working tree clean")) = true) ∧
    (doCherryPick ⟨none, none, none, none, some (str "nothing to commit"), none⟩
        (str "devops-release/0021") (str "c001d00d1234567") 0 = .noop) ∧
    processTarget ghFresh pickNoop (str "o") false (str "c001d00d1234567")
        (str "devops-release/0021") =
      [.pickInvoke (str "devops-release/0021") (str "c001d00d1234567") none,
       .comment (commentNoop (str "devops-release/0021"))] :=
  ⟨by decide,
   (noop_classification.2.1 ⟨none, none, none, none, some (str "nothing to commit"), none⟩
      (str "devops-release/0021") (str "c001d00d1234567") 0).mpr
     ⟨rfl, rfl, rfl, rfl, str "nothing to commit", rfl, by decide⟩,
   by
    have h := (noop_classification.2.2 ghFresh pickNoop (str "o") false
      (str "c001d00d1234567") (str "devops-release/0021")
      (by decide) (by decide) rfl).1
    simpa using h⟩

/-! ## C1: idempotence of the per-target step -/

/-- C1.  When the deterministic work-branch ref already exists, the
per-target step invokes no cherry-pick, creates no pull request, and
posts exactly one informational comment: "already open" with the URL
when an open PR with head = work branch and base = target exists,
otherwise "work branch exists, skipping duplicate".  Consequently a
pass over any target list whose work branches all exist produces no
pull-request creation and no cherry-pick invocation at all. -/
theorem idempotent_skip (gh : GH) (pick : Str → Str → Bool → CPResult)
    (owner : Str) (im : Bool) (sha target : Str)
    (hT : gh.getRefOk (str "refs/heads/" ++ target) = true)
    (hW : gh.getRefOk (str "refs/heads/" ++ workBranchOrch target sha) = true) :
    (processTarget gh pick owner im sha target =
      match (gh.listOpen (owner ++ str ":" ++ workBranchOrch target sha) target).toOption.getD [] with
      | p :: _ => [.comment (commentAlreadyOpen target p.url)]
      | [] => [.comment (commentBranchExists (workBranchOrch target sha) target)]) ∧
    (∀ t s m, Effect.pickInvoke t s m ∉ processTarget gh pick owner im sha target) ∧
    (∀ hd b, Effect.createPR hd b ∉ processTarget gh pick owner im sha target) ∧
    ((processTarget gh pick owner im sha target).filter isCommentEff).length = 1 ∧
    (∀ (pr : PRData) (ov : List Str) (sha2 : Str),
      resolveMergeSHA pr = some sha2 →
      (∀ t ∈ (if ov ≠ [] then ov else ParseTargetBranches pr.labels),
        gh.getRefOk (str "refs/heads/" ++ t) = true ∧
        gh.getRefOk (str "refs/heads/" ++ workBranchOrch t sha2) = true) →
      (∀ hd b, Effect.createPR hd b ∉ processMergedPRWith gh pick owner pr ov) ∧
      (∀ t s m, Effect.pickInvoke t s m ∉ processMergedPRWith gh pick owner pr ov)) := by
  have hchar := @processTarget_of_branchExists gh pick owner im sha target hT hW
  refine ⟨hchar, ?_, ?_, ?_, ?_⟩
  · intro t s m hmem
    obtain ⟨_, _, _⟩ := mem_pickInvoke_processTarget hmem
    rw [hchar] at hmem
    rcases hE : (gh.listOpen (owner ++ str ":" ++ workBranchOrch target sha) target).toOption.getD [] with _ | ⟨p, rest⟩ <;>
      rw [hE] at hmem <;> simp at hmem
  · intro hd b hmem
    obtain ⟨_, _, hfalse⟩ := mem_createPR_processTarget hmem
    rw [hW] at hfalse
    exact Bool.noConfusion hfalse
  · rw [hchar]
    rcases hE : (gh.listOpen (owner ++ str ":" ++ workBranchOrch target sha) target).toOption.getD [] with _ | ⟨p, rest⟩ <;>
      rfl
  · intro pr ov sha2 hres hall
    have key : ∀ hd b t s m,
        (Effect.createPR hd b ∉ processMergedPRWith gh pick owner pr ov) ∧
        (Effect.pickInvoke t s m ∉ processMergedPRWith gh pick owner pr ov) := by
      intro hd b t s m
      constructor <;> intro hmem <;>
        [skip; skip] <;> {
          unfold processMergedPRWith at hmem
          by_cases he : (if ov ≠ [] then ov else ParseTargetBranches pr.labels) = []
          · rw [if_pos he] at hmem
            simp at hmem
          · rw [if_neg he, hres] at hmem
            rw [List.mem_flatten] at hmem
            obtain ⟨l, hl, hml⟩ := hmem
            rw [List.mem_map] at hl
            obtain ⟨t2, ht2, rfl⟩ := hl
            obtain ⟨hT2, hW2⟩ := hall t2 ht2
            have hchar2 := @processTarget_of_branchExists gh pick owner
              (classifyMerge gh sha2) sha2 t2 hT2 hW2
            rw [hchar2] at hml
            rcases hE : (gh.listOpen (owner ++ str ":" ++ workBranchOrch t2 sha2) t2).toOption.getD [] with _ | ⟨p, rest⟩ <;>
              rw [hE] at hml <;> simp at hml
        }
    exact ⟨fun hd b => (key hd b (str "") (str "") none).1,
           fun t s m => (key (str "") (str "") t s m).2⟩

/-- Witness for C1: with every ref existing and no open PR listed, the
step posts exactly the "work branch exists" comment. -/
theorem idempotent_skip_witness :
    processTarget ghAllRefs pickOk (str "o") false (str "c001d00d1234567")
        (str "devops-release/0021") =
      [.comment (commentBranchExists
        (workBranchOrch (str "devops-release/0021") (str "c001d00d1234567"))
        (str "devops-release/0021"))] :=
  (idempotent_skip ghAllRefs pickOk (str "o") false (str "c001d00d1234567")
    (str "devops-release/0021") (by decide) (by decide)).1

/-! ## C9: pull-request creation failure after a successful push -/

/-- C9.  When the cherry-pick succeeded and was pushed but pull-request
creation fails, the per-target step posts exactly one warning comment,
deletes no ref and closes no pull request (the pushed branch stays in
place), and a pass whose first target hits this failure still performs
all the remaining targets' effects unchanged. -/
theorem create_failure_warns (gh : GH) (pick : Str → Str → Bool → CPResult)
    (owner : Str) (im : Bool) (sha target wb msg : Str)
    (hT : gh.getRefOk (str "refs/heads/" ++ target) = true)
    (hW : gh.getRefOk (str "refs/heads/" ++ workBranchOrch target sha) = false)
    (hP : pick target sha im = .ok wb)
    (hC : gh.create wb target = .err msg) :
    processTarget gh pick owner im sha target =
      [.pickInvoke target sha (if im then some 1 else none),
       .createPR wb target,
       .comment (commentCreateFailed target msg)] ∧
    (∀ r, Effect.delRef r ∉ processTarget gh pick owner im sha target) ∧
    (∀ n, Effect.closePR n ∉ processTarget gh pick owner im sha target) ∧
    ((processTarget gh pick owner im sha target).filter isCommentEff).length = 1 ∧
    (∀ rest : List Str,
      ((target :: rest).map (processTarget gh pick owner im sha)).flatten =
        [.pickInvoke target sha (if im then some 1 else none),
         .createPR wb target,
         .comment (commentCreateFailed target msg)] ++
        (rest.map (processTarget gh pick owner im sha)).flatten) := by
  have he : processTarget gh pick owner im sha target =
      [.pickInvoke target sha (if im then some 1 else none),
       .createPR wb target,
       .comment (commentCreateFailed target msg)] := by
    unfold processTarget
    rw [if_neg (by simp [hT]), if_neg (by simp [hW]), hP]
    simp [hC]
  refine ⟨he, ?_, ?_, by rw [he]; rfl, ?_⟩
  · intro r hmem
    rw [he] at hmem
    simp at hmem
  · intro n hmem
    rw [he] at hmem
    simp at hmem
  · intro rest
    rw [List.map_cons, List.flatten_cons, he]

/-- Oracle for the C9 witness: creation always fails. -/
def ghCreateFails : GH :=
  { getRefOk := fun r => decide (¬ (str "refs/heads/autocherry/").isPrefixOf r)
    listOpen := fun _ _ => .ok []
    parents := fun _ => some 1
    create := fun _ _ => .err (str "validation failed")
    deleteRef := fun _ => none }

/-- Witness for C9 at concrete inputs. -/
theorem create_failure_warns_witness :
    processTarget ghCreateFails pickOk (str "o") false (str "c001d00d1234567")
        (str "devops-release/0021") =
      [.pickInvoke (str "devops-release/0021") (str "c001d00d1234567") none,
       .createPR (workBranchRunner (str "devops-release/0021") (str "c001d00d1234567"))
         (str "devops-release/0021"),
       .comment (commentCreateFailed (str "devops-release/0021") (str "validation failed"))] := by
  have h := (create_failure_warns ghCreateFails pickOk (str "o") false
    (str "c001d00d1234567") (str "devops-release/0021")
    (workBranchRunner (str "devops-release/0021") (str "c001d00d1234567"))
    (str "validation failed") (by decide) (by decide) rfl rfl).1
  simpa using h

/-! ## C6: unlabel reversal -/

/-- C6.  Removing a `cherry-pick to <target>` label from a merged PR
recomputes the deterministic work-branch name from the merge SHA and
the target (the very name the executor pushes), closes every open PR
with exactly that head and base, deletes the work-branch ref, and
treats a 404 on the delete as success while any other delete error is
reported as a failure. -/
theorem unlabel_reversal (gh : GH) (owner : Str) (pr : PRData)
    (lbl target sha : Str) (l : List PRRef)
    (hparse : ParseTargetBranches [some lbl] = [target])
    (hsha : resolveMergeSHAUnlabel pr = sha) (hne : sha ≠ [])
    (hlist : gh.listOpen (owner ++ str ":" ++ workBranchOrch target sha) target = .ok l) :
    (∀ p ∈ l, Effect.closePR p.number ∈ handleUnlabeled gh owner pr (some lbl)) ∧
    Effect.delRef (str "refs/heads/" ++ workBranchOrch target sha) ∈
      handleUnlabeled gh owner pr (some lbl) ∧
    workBranchOrch target sha = workBranchRunner target sha ∧
    ((processUnlabeled gh owner target (workBranchOrch target sha)).2 = none ↔
      (gh.deleteRef (str "refs/heads/" ++ workBranchOrch target sha) = none ∨
       ∃ e, gh.deleteRef (str "refs/heads/" ++ workBranchOrch target sha) = some e ∧
         isNotFound e = true)) := by
  have hh : handleUnlabeled gh owner pr (some lbl) =
      (match processUnlabeled gh owner target (workBranchOrch target sha) with
       | (effs, some _) => effs
       | (effs, none) =>
         effs ++ [.comment (commentUnlabelDone target (workBranchOrch target sha))]) := by
    unfold handleUnlabeled
    rw [hparse, if_neg (by simp), hsha, if_neg hne]
    simp
  have hu : processUnlabeled gh owner target (workBranchOrch target sha) =
      (l.map (fun p => Effect.closePR p.number) ++
        [Effect.delRef (str "refs/heads/" ++ workBranchOrch target sha)],
       match gh.deleteRef (str "refs/heads/" ++ workBranchOrch target sha) with
       | none => none
       | some e => if isNotFound e then none else some e) := by
    unfold processUnlabeled
    rw [hlist]
    rcases hd : gh.deleteRef (str "refs/heads/" ++ workBranchOrch target sha) with _ | e
    · simp
    · by_cases hnf : isNotFound e = true <;> simp [hnf]
  have hmem : ∀ x ∈ l.map (fun p => Effect.closePR p.number) ++
      [Effect.delRef (str "refs/heads/" ++ workBranchOrch target sha)],
      x ∈ handleUnlabeled gh owner pr (some lbl) := by
    intro x hx
    rw [hh, hu]
    rcases hd : gh.deleteRef (str "refs/heads/" ++ workBranchOrch target sha) with _ | e
    · exact List.mem_append_left _ hx
    · by_cases hnf : isNotFound e = true
      · simp only [hnf, if_true]
        exact List.mem_append_left _ hx
      · simp only [hnf, Bool.false_eq_true, if_false]
        exact hx
  refine ⟨?_, ?_, rfl, ?_⟩
  · intro p hp
    exact hmem _ (List.mem_append_left _ (List.mem_map_of_mem _ hp))
  · exact hmem _ (List.mem_append_right _ (by simp))
  · rw [hu]
    rcases hd : gh.deleteRef (str "refs/heads/" ++ workBranchOrch target sha) with _ | e
    · simp
    · by_cases hnf : isNotFound e = true
      · simp [hnf]
      · simp [hnf]

/-- Oracle for the C6 witness: one open auto-cherry PR (number 12) and
deletes answering 404 (ref already gone). -/
def ghUnlabel : GH :=
  { getRefOk := fun _ => true
    listOpen := fun _ _ => .ok [⟨12, str "https://example.test/pr/12"⟩]
    parents := fun _ => some 1
    create := fun _ _ => .ok (str "https://example.test/pr/13")
    deleteRef := fun _ => some (.ghResp 404 (str "Not Found")) }

/-- Witness for C6: the open PR is closed, the ref delete happens, and
the 404 on the delete is not reported as a failure. -/
theorem unlabel_reversal_witness :
    Effect.closePR 12 ∈ handleUnlabeled ghUnlabel (str "o") prX
        (some (str "cherry-pick to devops-release/0021")) ∧
    (processUnlabeled ghUnlabel (str "o") (str "devops-release/0021")
        (workBranchOrch (str "devops-release/0021") (str "c001d00d1234567"))).2 = none :=
  ⟨(unlabel_reversal ghUnlabel (str "o") prX (str "cherry-pick to devops-release/0021")
      (str "devops-release/0021") (str "c001d00d1234567")
      [⟨12, str "https://example.test/pr/12"⟩]
      (by decide) (by decide) (by decide) rfl).1 ⟨12, str "https://example.test/pr/12"⟩ (by decide),
   (unlabel_reversal ghUnlabel (str "o") prX (str "cherry-pick to devops-release/0021")
      (str "devops-release/0021") (str "c001d00d1234567")
      [⟨12, str "https://example.test/pr/12"⟩]
      (by decide) (by decide) (by decide) rfl).2.2.2.mpr
     (Or.inr ⟨.ghResp 404 (str "Not Found"), rfl, by decide⟩)⟩

/-! ## C10: log sanitisation -/

/-- Characters are equal when their code points are. -/
theorem char_eq_of_toNat {c d : Char} (h : c.toNat = d.toNat) : c = d := by
  apply Char.ext
  apply UInt32.ext
  simpa [Char.toNat] using h

theorem keepRune_spec (c : Char) (h : keepRune c = true) :
    c ≠ '\n' ∧ c ≠ '\r' ∧ (c.toNat < 0x20 → c = '\t') ∧
      c.toNat ≠ 0x2028 ∧ c.toNat ≠ 0x2029 := by
  unfold keepRune at h
  by_cases h1 : c = '\n' ∨ c = '\r'
  · rw [if_pos h1] at h
    exact absurd h (by simp)
  · rw [if_neg h1] at h
    by_cases h2 : c.toNat < 0x20 ∧ c ≠ '\t'
    · rw [if_pos h2] at h
      exact absurd h (by simp)
    · rw [if_neg h2] at h
      by_cases h3 : c.toNat = 0x2028 ∨ c.toNat = 0x2029
      · rw [if_pos h3] at h
        exact absurd h (by simp)
      · push_neg at h1 h2 h3
        exact ⟨h1.1, h1.2, h2, h3.1, h3.2⟩

theorem utf8Bytes_clean (c : Char) (h : keepRune c = true) :
    ∀ b ∈ utf8Bytes c, b ≠ 10 ∧ b ≠ 13 ∧ (b < 32 → b = 9) := by
  obtain ⟨h1, h2, h3, _, _⟩ := keepRune_spec c h
  intro b hb
  simp only [utf8Bytes] at hb
  by_cases c1 : c.toNat < 0x80
  · rw [if_pos c1] at hb
    simp at hb
    subst hb
    refine ⟨fun hc => h1 (char_eq_of_toNat (by simpa using hc)),
            fun hc => h2 (char_eq_of_toNat (by simpa using hc)),
            fun hc => ?_⟩
    have := h3 hc
    subst this
    rfl
  · rw [if_neg c1] at hb
    by_cases c2 : c.toNat < 0x800
    · rw [if_pos c2] at hb
      simp at hb
      rcases hb with hb | hb <;> omega
    · rw [if_neg c2] at hb
      by_cases c3 : c.toNat < 0x10000
      · rw [if_pos c3] at hb
        simp at hb
        rcases hb with hb | hb | hb <;> omega
      · rw [if_neg c3] at hb
        simp at hb
        rcases hb with hb | hb | hb | hb <;> omega

theorem mem_encodeUtf8 {b : Nat} {s : Str} (h : b ∈ encodeUtf8 s) :
    ∃ c ∈ s, b ∈ utf8Bytes c := by
  unfold encodeUtf8 at h
  rw [List.mem_flatten] at h
  obtain ⟨l, hl, hb⟩ := h
  rw [List.mem_map] at hl
  obtain ⟨c, hc, rfl⟩ := hl
  exact ⟨c, hc, hb⟩

/-- C10.  `sanitizeForLog` keeps no carriage return, line feed,
U+2028/U+2029 separator, or control character other than tab (stated
both on the surviving runes and on every byte of the produced byte
string), caps the byte length at 512 plus one appended ellipsis
character, and returns an input of at most 512 bytes containing none
of those characters unchanged. -/
theorem sanitize_log_clean (s : Str) :
    (∀ c ∈ s.filter keepRune,
      c ≠ '\n' ∧ c ≠ '\r' ∧ (c.toNat < 0x20 → c = '\t') ∧
        c.toNat ≠ 0x2028 ∧ c.toNat ≠ 0x2029) ∧
    (∀ b ∈ sanitizeForLog s, b ≠ 10 ∧ b ≠ 13 ∧ (b < 32 → b = 9)) ∧
    (sanitizeForLog s).length ≤ 512 + (encodeUtf8 (str "…")).length ∧
    ((encodeUtf8 s).length ≤ 512 → (∀ c ∈ s, keepRune c = true) →
      sanitizeForLog s = encodeUtf8 s) := by
  refine ⟨?_, ?_, ?_, ?_⟩
  · intro c hc
    rw [List.mem_filter] at hc
    exact keepRune_spec c hc.2
  · intro b hb
    unfold sanitizeForLog at hb
    by_cases hs : s = []
    · rw [if_pos hs] at hb
      simp at hb
    · rw [if_neg hs] at hb
      have hclean : ∀ b2 ∈ encodeUtf8 (s.filter keepRune),
          b2 ≠ 10 ∧ b2 ≠ 13 ∧ (b2 < 32 → b2 = 9) := by
        intro b2 hb2
        obtain ⟨c, hc, hbc⟩ := mem_encodeUtf8 hb2
        rw [List.mem_filter] at hc
        exact utf8Bytes_clean c hc.2 b2 hbc
      by_cases htr : 512 < (encodeUtf8 (s.filter keepRune)).length
      · rw [if_pos htr] at hb
        rcases List.mem_append.mp hb with hb | hb
        · exact hclean b ((List.take_subset _ _) hb)
        · have : b ∈ [226, 128, 166] := by
            have he : encodeUtf8 (str "…") = [226, 128, 166] := by decide
            rw [he] at hb
            exact hb
          simp at this
          rcases this with rfl | rfl | rfl <;> omega
      · rw [if_neg htr] at hb
        exact hclean b hb
  · unfold sanitizeForLog
    by_cases hs : s = []
    · rw [if_pos hs]
      simp
    · rw [if_neg hs]
      by_cases htr : 512 < (encodeUtf8 (s.filter keepRune)).length
      · rw [if_pos htr]
        rw [List.length_append]
        have : (List.take 512 (encodeUtf8 (s.filter keepRune))).length ≤ 512 :=
          List.length_take_le 512 _
        omega
      · rw [if_neg htr]
        omega
  · intro hlen hall
    unfold sanitizeForLog
    by_cases hs : s = []
    · rw [if_pos hs]
      subst hs
      rfl
    · rw [if_neg hs]
      have hf : s.filter keepRune = s := List.filter_eq_self.mpr hall
      rw [hf, if_neg (by omega)]

/-- Witness for C10: a short clean input is returned unchanged. -/
theorem sanitize_log_clean_witness :
    sanitizeForLog (str "pr.event ok\tinst 42") = encodeUtf8 (str "pr.event ok\tinst 42") :=
  (sanitize_log_clean (str "pr.event ok\tinst 42")).2.2.2 (by decide) (by decide)

/-! ## Retention lemmas (C7, C8) -/

theorem splitOnChar_ne_nil (sep : Char) (s : Str) : splitOnChar sep s ≠ [] := by
  induction s with
  | nil => simp [splitOnChar]
  | cons c t ih =>
    rw [splitOnChar]
    by_cases h : c = sep
    · simp [h]
    · simp only [h, if_false]
      rcases he : splitOnChar sep t with _ | ⟨h2, r⟩ <;> simp

/-- Rejoin the parts produced by `splitOnChar` with the separator. -/
def joinWith (sep : Char) : List Str → Str
  | [] => []
  | [p] => p
  | p :: rest => p ++ sep :: joinWith sep rest

theorem joinWith_splitOnChar (sep : Char) (s : Str) :
    joinWith sep (splitOnChar sep s) = s := by
  induction s with
  | nil => rfl
  | cons c t ih =>
    rw [splitOnChar]
    by_cases h : c = sep
    · rw [if_pos h]
      rcases he : splitOnChar sep t with _ | ⟨p, r⟩
      · exact absurd he (splitOnChar_ne_nil sep t)
      · rw [he] at ih
        simp [joinWith, ih, h]
    · rw [if_neg h]
      rcases he : splitOnChar sep t with _ | ⟨p, r⟩
      · exact absurd he (splitOnChar_ne_nil sep t)
      · rw [he] at ih
        rcases r with _ | ⟨q, r2⟩
        · simp only [joinWith] at ih ⊢
          rw [ih]
        · simp only [joinWith] at ih ⊢
          rw [List.cons_append, ih]

theorem eq_append_drop_of_isPrefixOf {p s : Str} (h : p.isPrefixOf s = true) :
    s = p ++ s.drop p.length := by
  obtain ⟨t, rfl⟩ := List.isPrefixOf_iff_prefix.mp h
  simp

theorem retentionMatch_spec {name fam num : Str}
    (h : retentionMatch name = some (fam, num)) :
    name = str "cherry-pick to " ++ fam ++ '/' :: num ∧
    fam.all isFamChar = true ∧ (str "-release").isSuffixOf fam = true ∧
    8 < fam.length ∧ num ≠ [] ∧ num.all isDigitCh = true := by
  unfold retentionMatch at h
  by_cases hp : (str "cherry-pick to ").isPrefixOf name = true
  · rw [if_pos hp] at h
    rcases he : splitOnChar '/' (name.drop (str "cherry-pick to ").length)
      with _ | ⟨f1, r⟩
    · rw [he] at h
      simp at h
    · rcases r with _ | ⟨f2, r2⟩
      · rw [he] at h
        simp at h
      · rcases r2 with _ | ⟨f3, r3⟩
        · rw [he] at h
          have h2 : (if (f1.all isFamChar && (str "-release").isSuffixOf f1 &&
                decide (8 < f1.length) && decide (f2 ≠ []) && f2.all isDigitCh) = true
              then some (f1, f2) else none) = some (fam, num) := h
          by_cases hg : (f1.all isFamChar && (str "-release").isSuffixOf f1 &&
              decide (8 < f1.length) && decide (f2 ≠ []) && f2.all isDigitCh) = true
          · rw [if_pos hg] at h2
            injection h2 with hpr
            obtain ⟨rfl, rfl⟩ := Prod.mk.injEq .. |>.mp hpr
            simp only [Bool.and_eq_true, decide_eq_true_eq] at hg
            refine ⟨?_, hg.1.1.1.1, hg.1.1.1.2, hg.1.1.2, hg.1.2, hg.2⟩
            have hjoin := joinWith_splitOnChar '/' (name.drop (str "cherry-pick to ").length)
            rw [he] at hjoin
            simp only [joinWith] at hjoin
            rw [eq_append_drop_of_isPrefixOf hp, ← hjoin, List.append_assoc]
          · rw [if_neg hg] at h2
            simp at h2
        · rw [he] at h
          simp at h
  · rw [if_neg hp] at h
    simp at h

theorem retentionItems_spec {labels : List (Option Str)} {it : RetItem}
    (h : it ∈ retentionItems labels) :
    some it.full ∈ labels ∧
    ∃ num, retentionMatch it.full = some (it.fam, num) ∧
      it.n = parseIntGo num ∧ 0 ≤ it.n := by
  unfold retentionItems at h
  rw [List.mem_filterMap] at h
  obtain ⟨l, hl, hf⟩ := h
  rcases l with _ | name
  · simp at hf
  · have hf2 : (match retentionMatch name with
        | none => none
        | some (fam, num) =>
          if parseIntGo num < 0 then none
          else some (⟨name, fam, parseIntGo num⟩ : RetItem)) = some it := hf
    rcases hm : retentionMatch name with _ | ⟨fam, num⟩
    · rw [hm] at hf2
      simp at hf2
    · rw [hm] at hf2
      have hf3 : (if parseIntGo num < 0 then none
          else some (⟨name, fam, parseIntGo num⟩ : RetItem)) = some it := hf2
      by_cases hn : parseIntGo num < 0
      · rw [if_pos hn] at hf3
        simp at hf3
      · rw [if_neg hn] at hf3
        injection hf3 with hf3
        subst hf3
        exact ⟨hl, num, hm, rfl, by simp only []; omega⟩

theorem retentionItems_full_inj {labels : List (Option Str)} {it1 it2 : RetItem}
    (h1 : it1 ∈ retentionItems labels) (h2 : it2 ∈ retentionItems labels)
    (he : it1.full = it2.full) : it1 = it2 := by
  obtain ⟨_, num1, hm1, hn1, _⟩ := retentionItems_spec h1
  obtain ⟨_, num2, hm2, hn2, _⟩ := retentionItems_spec h2
  rw [he] at hm1
  rw [hm1] at hm2
  injection hm2 with hpr
  obtain ⟨hf, hnum⟩ := Prod.mk.injEq .. |>.mp hpr
  subst hnum
  cases it1
  cases it2
  simp only at he hf hn1 hn2 ⊢
  subst he
  subst hf
  rw [hn1, hn2]

instance : IsTotal RetItem (fun a b => a.n ≤ b.n) :=
  ⟨fun a b => Int.le_total a.n b.n⟩

instance : IsTrans RetItem (fun a b => a.n ≤ b.n) :=
  ⟨fun _ _ _ h1 h2 => le_trans h1 h2⟩

theorem mem_enforce_iff {labels : List (Option Str)} {keep : Int}
    (hk : 0 < keep) (d : Str) :
    d ∈ enforceLabelRetention labels keep ↔
      ∃ fam, fam ∈ (retentionItems labels).map (fun it => it.fam) ∧
        d ∈ famDeletions (retentionItems labels) keep.toNat fam := by
  unfold enforceLabelRetention
  rw [if_neg (by omega), List.mem_flatten]
  constructor
  · rintro ⟨l, hl, hd⟩
    rw [List.mem_map] at hl
    obtain ⟨fam, hfam, rfl⟩ := hl
    exact ⟨fam, ((dedupeGo_mem [] _ fam).mp hfam).1, hd⟩
  · rintro ⟨fam, hfam, hd⟩
    exact ⟨famDeletions (retentionItems labels) keep.toNat fam,
      List.mem_map_of_mem _ ((dedupeGo_mem [] _ fam).mpr ⟨hfam, by simp⟩), hd⟩

theorem mem_famDeletions {items : List RetItem} {keepN : Nat} {fam d : Str}
    (h : d ∈ famDeletions items keepN fam) :
    ∃ it, it ∈ items ∧ it.fam = fam ∧ it.full = d ∧
      it ∈ (List.insertionSort (fun a b : RetItem => a.n ≤ b.n)
        (items.filter (fun it => it.fam = fam))).take
        ((items.filter (fun it => it.fam = fam)).length - keepN) := by
  unfold famDeletions at h
  by_cases hle : (items.filter (fun it => it.fam = fam)).length ≤ keepN
  · rw [if_pos hle] at h
    simp at h
  · rw [if_neg hle] at h
    rw [List.mem_map] at h
    obtain ⟨it, hit, rfl⟩ := h
    have hsort : it ∈ List.insertionSort (fun a b : RetItem => a.n ≤ b.n)
        (items.filter (fun it => it.fam = fam)) := List.take_subset _ _ hit
    have hfil : it ∈ items.filter (fun it => it.fam = fam) :=
      (List.perm_insertionSort _ _).mem_iff.mp hsort
    have hmf := List.mem_filter.mp hfil
    exact ⟨it, hmf.1, by simpa using hmf.2, rfl, hit⟩

/-! ## C7: retention keeps the newest N labels per team -/

/-- C7.  Retention with `keep <= 0` deletes nothing.  With `keep > 0`:
every deleted name is a matching label; a family within the newest N is
untouched; every deleted label's parsed number (`parseIntGo`, Go's
64-bit wrapping parse, equal to the denoted number for suffixes of up
to eighteen digits) is at most every kept same-family label's parsed
number; the number of deletions equals, per family, the excess of the
family size over N; and the concrete round-trip scenario (8 labels for
one team, keep 5) deletes exactly the 3 lowest-numbered. -/
theorem retention_keeps_newest (labels : List (Option Str)) (keep : Int) :
    (keep ≤ 0 → enforceLabelRetention labels keep = []) ∧
    (0 < keep →
      (∀ d ∈ enforceLabelRetention labels keep,
        ∃ it, it ∈ retentionItems labels ∧ it.full = d) ∧
      (∀ fam : Str,
        ((retentionItems labels).filter (fun it => it.fam = fam)).length ≤ keep.toNat →
        ∀ it, it ∈ retentionItems labels → it.fam = fam →
          it.full ∉ enforceLabelRetention labels keep) ∧
      (∀ it1 it2 : RetItem, it1 ∈ retentionItems labels →
        it2 ∈ retentionItems labels → it1.fam = it2.fam →
        it1.full ∈ enforceLabelRetention labels keep →
        it2.full ∉ enforceLabelRetention labels keep →
        it1.n ≤ it2.n) ∧
      (enforceLabelRetention labels keep).length =
        ((dedupeGo [] ((retentionItems labels).map (fun it => it.fam))).map
          (fun fam =>
            ((retentionItems labels).filter (fun it => it.fam = fam)).length -
              keep.toNat)).sum) ∧
    enforceLabelRetention
        [some (str "cherry-pick to team-release/0001"),
         some (str "cherry-pick to team-release/0002"),
         some (str "cherry-pick to team-release/0003"),
         some (str "cherry-pick to team-release/0004"),
         some (str "cherry-pick to team-release/0005"),
         some (str "cherry-pick to team-release/0006"),
         some (str "cherry-pick to team-release/0007"),
         some (str "cherry-pick to team-release/0008")] 5 =
      [str "cherry-pick to team-release/0001",
       str "cherry-pick to team-release/0002",
       str "cherry-pick to team-release/0003"] := by
  refine ⟨?_, fun hk => ⟨?_, ?_, ?_, ?_⟩, by decide⟩
  · intro hle
    unfold enforceLabelRetention
    rw [if_pos hle]
  · intro d hd
    obtain ⟨fam, _, hfd⟩ := (mem_enforce_iff hk d).mp hd
    obtain ⟨it, hiti, _, hfull, _⟩ := mem_famDeletions hfd
    exact ⟨it, hiti, hfull⟩
  · intro fam hsmall it hit hfam hmem
    obtain ⟨fam2, _, hfd⟩ := (mem_enforce_iff hk it.full).mp hmem
    obtain ⟨x, hxi, hxf, hxfull, _⟩ := mem_famDeletions hfd
    have hxeq : x = it := retentionItems_full_inj hxi hit hxfull
    subst hxeq
    have hfe : fam2 = fam := by rw [← hxf, hfam]
    subst hfe
    unfold famDeletions at hfd
    rw [if_pos hsmall] at hfd
    simp at hfd
  · intro it1 it2 h1 h2 hfameq hin hout
    obtain ⟨fam2, _, hfd⟩ := (mem_enforce_iff hk it1.full).mp hin
    obtain ⟨x, hxi, hxf, hxfull, hxtake⟩ := mem_famDeletions hfd
    have hxeq : x = it1 := retentionItems_full_inj hxi h1 hxfull
    subst hxeq
    subst hxf
    have hgt : ¬ ((retentionItems labels).filter
        (fun it => it.fam = x.fam)).length ≤ keep.toNat := by
      intro hle
      have hk0 : ((retentionItems labels).filter
          (fun it => it.fam = x.fam)).length - keep.toNat = 0 := by omega
      rw [hk0] at hxtake
      simp at hxtake
    have h2g : it2 ∈ (retentionItems labels).filter (fun it => it.fam = x.fam) :=
      List.mem_filter.mpr ⟨h2, by simp [← hfameq]⟩
    have h2s : it2 ∈ List.insertionSort (fun a b : RetItem => a.n ≤ b.n)
        ((retentionItems labels).filter (fun it => it.fam = x.fam)) :=
      (List.perm_insertionSort _ _).mem_iff.mpr h2g
    have h2nt : it2 ∉ (List.insertionSort (fun a b : RetItem => a.n ≤ b.n)
        ((retentionItems labels).filter (fun it => it.fam = x.fam))).take
        (((retentionItems labels).filter (fun it => it.fam = x.fam)).length -
          keep.toNat) := by
      intro hc
      apply hout
      apply (mem_enforce_iff hk it2.full).mpr
      refine ⟨x.fam, List.mem_map_of_mem _ h1, ?_⟩
      unfold famDeletions
      rw [if_neg hgt]
      exact List.mem_map_of_mem _ hc
    have h2d : it2 ∈ (List.insertionSort (fun a b : RetItem => a.n ≤ b.n)
        ((retentionItems labels).filter (fun it => it.fam = x.fam))).drop
        (((retentionItems labels).filter (fun it => it.fam = x.fam)).length -
          keep.toNat) := by
      rw [← List.take_append_drop
        (((retentionItems labels).filter (fun it => it.fam = x.fam)).length -
          keep.toNat)
        (List.insertionSort (fun a b : RetItem => a.n ≤ b.n)
          ((retentionItems labels).filter (fun it => it.fam = x.fam)))] at h2s
      exact (List.mem_append.mp h2s).resolve_left h2nt
    exact (List.sorted_insertionSort (fun a b : RetItem => a.n ≤ b.n)
      _).rel_of_mem_take_of_mem_drop hxtake h2d
  · unfold enforceLabelRetention
    rw [if_neg (by omega), List.length_flatten, List.map_map]
    congr 1
    apply List.map_congr_left
    intro fam _
    simp only [Function.comp]
    unfold famDeletions
    by_cases hle : ((retentionItems labels).filter
        (fun it => it.fam = fam)).length ≤ keep.toNat
    · rw [if_pos hle]
      simp
      omega
    · rw [if_neg hle]
      rw [List.length_map, List.length_take,
        (List.perm_insertionSort _ _).length_eq]
      exact Nat.min_eq_left (Nat.sub_le _ _)

/-- Witness for C7: retention disabled deletes nothing; a deleted label
always corresponds to a matching item. -/
theorem retention_keeps_newest_witness :
    enforceLabelRetention [some (str "cherry-pick to team-release/0001")] (-1) = [] ∧
    (∃ it, it ∈ retentionItems
        [some (str "cherry-pick to team-release/0001"),
         some (str "cherry-pick to team-release/0002")] ∧
      it.full = str "cherry-pick to team-release/0001") :=
  ⟨(retention_keeps_newest [some (str "cherry-pick to team-release/0001")] (-1)).1
      (by decide),
   ((retention_keeps_newest
        [some (str "cherry-pick to team-release/0001"),
         some (str "cherry-pick to team-release/0002")] 1).2.1 (by decide)).1
      (str "cherry-pick to team-release/0001") (by decide)⟩

/-- Counterexample to C7 as stated: Go's `parseInt` accumulates in a
wrapping 64-bit `int`, so a 19-digit suffix (within GitHub's label
length limit) parses negative and is silently exempted from retention.
With labels 0001, 0002 and a 19-nines suffix and `keep = 2`, the
newest two by numeric suffix are the 19-digit label and 0002, so the
claim requires deleting 0001 — but the code's bucket holds only two
labels and nothing is deleted. -/
theorem retention_wrap_counterexample :
    enforceLabelRetention
        [some (str "cherry-pick to team-release/0001"),
         some (str "cherry-pick to team-release/0002"),
         some (str "cherry-pick to team-release/9999999999999999999")] 2 = [] ∧
    parseIntGo (str "9999999999999999999") = -8446744073709551617 ∧
    (retentionItems
        [some (str "cherry-pick to team-release/9999999999999999999")]).length = 0 := by
  decide

/-! ## C8: the release-label grammar used by retention

The claim states the numeric suffix is exactly four digits.  The
retention filter (handler line 544) uses `(\d+)`: any nonempty digit
run is accepted, so a three-digit label is selected and can be deleted
by retention (the counterexample below).  Only branch *creation*
(handler line 486) requires exactly four digits.  The amended claim
replaces "4-digit number" by "one or more digits". -/

/-- Counterexample to C8 as stated: a label whose numeric suffix has
three digits is selected by retention — it is grouped, ordered lowest,
and deleted. -/
theorem retention_label_grammar_counterexample :
    enforceLabelRetention
        [some (str "cherry-pick to team-release/123"),
         some (str "cherry-pick to team-release/0124")] 1 =
      [str "cherry-pick to team-release/123"] ∧
    (retentionItems [some (str "cherry-pick to team-release/123")]).length = 1 := by
  decide

/-- C8 (amended).  Every label that retention deletes is one of the
repository's labels and matches
`cherry-pick to <team>-release/<one-or-more-digits>`: the family part
consists of `[a-z0-9-]` characters and ends in `-release`, and the
numeric suffix is a nonempty digit run (of any length, not necessarily
four). -/
theorem retention_label_grammar (labels : List (Option Str)) (keep : Int) :
    ∀ d ∈ enforceLabelRetention labels keep,
      some d ∈ labels ∧
      ∃ fam num : Str, d = str "cherry-pick to " ++ fam ++ '/' :: num ∧
        fam.all isFamChar = true ∧ (str "-release").isSuffixOf fam = true ∧
        8 < fam.length ∧ num ≠ [] ∧ num.all isDigitCh = true := by
  intro d hd
  by_cases hk : 0 < keep
  · obtain ⟨fam2, _, hfd⟩ := (mem_enforce_iff hk d).mp hd
    obtain ⟨it, hiti, _, hfull, _⟩ := mem_famDeletions hfd
    obtain ⟨hlab, num, hm, _, _⟩ := retentionItems_spec hiti
    obtain ⟨hname, hp1, hp2, hp3, hp4, hp5⟩ := retentionMatch_spec hm
    subst hfull
    exact ⟨hlab, it.fam, num, hname, hp1, hp2, hp3, hp4, hp5⟩
  · unfold enforceLabelRetention at hd
    rw [if_pos (by omega)] at hd
    simp at hd

/-- Witness for the amended C8 at a concrete deleted label. -/
theorem retention_label_grammar_witness :
    some (str "cherry-pick to team-release/123") ∈
      [some (str "cherry-pick to team-release/123"),
       some (str "cherry-pick to team-release/0124")] ∧
    ∃ fam num : Str,
      str "cherry-pick to team-release/123" =
        str "cherry-pick to " ++ fam ++ '/' :: num ∧
      fam.all isFamChar = true ∧ (str "-release").isSuffixOf fam = true ∧
      8 < fam.length ∧ num ≠ [] ∧ num.all isDigitCh = true :=
  retention_label_grammar
    [some (str "cherry-pick to team-release/123"),
     some (str "cherry-pick to team-release/0124")] 1
    (str "cherry-pick to team-release/123") (by decide)

/-! ## C3: the target-list parse (lemmas on substring provenance) -/

theorem goTrimSpace_infixOf (s : Str) : goTrimSpace s <:+: s := by
  unfold goTrimSpace
  have h1 : s.dropWhile isGoSpace <:+ s := List.dropWhile_suffix _
  have h2 : (s.dropWhile isGoSpace).reverse.dropWhile isGoSpace <:+
      (s.dropWhile isGoSpace).reverse := List.dropWhile_suffix _
  have h3 := List.reverse_prefix.mpr h2
  rw [List.reverse_reverse] at h3
  exact h3.isInfix.trans h1.isInfix

theorem stripLit_suffix : ∀ lit s r : Str, stripLit lit s = some r → r <:+ s := by
  intro lit
  induction lit with
  | nil =>
    intro s r h
    rw [stripLit] at h
    injection h with h
    subst h
    exact List.suffix_refl _
  | cons c lt ih =>
    intro s r h
    rcases s with _ | ⟨d, st⟩
    · simp [stripLit] at h
    · rw [stripLit] at h
      by_cases he : d.toLower = c
      · rw [if_pos he] at h
        exact (ih st r h).trans (List.suffix_cons d st)
      · rw [if_neg he] at h
        simp at h

theorem reqSpaces_suffix {s r : Str} (h : reqSpaces s = some r) : r <:+ s := by
  rcases s with _ | ⟨c, rest⟩
  · simp [reqSpaces] at h
  · rw [reqSpaces] at h
    by_cases hc : isReSpace c = true
    · rw [if_pos hc] at h
      injection h with h
      subst h
      exact (List.dropWhile_suffix _).trans (List.suffix_cons c rest)
    · rw [if_neg hc] at h
      simp at h

theorem optClass_suffix (s : Str) : optClass s <:+ s := by
  rcases s with _ | ⟨c, rest⟩
  · exact List.suffix_refl _
  · rw [optClass]
    by_cases hc : (isReSpace c || c = '-') = true
    · rw [if_pos hc]
      exact List.suffix_cons c rest
    · rw [if_neg hc]

theorem dropTrailing_prefixOf (p : Char → Bool) (s : Str) : dropTrailing p s <+: s := by
  unfold dropTrailing
  have h : s.reverse.dropWhile p <:+ s.reverse := List.dropWhile_suffix p
  have h2 := List.reverse_prefix.mpr h
  rwa [List.reverse_reverse] at h2

theorem matchCherryTo_infixOf {s cap : Str} (h : matchCherryTo s = some cap) :
    cap <:+: s := by
  unfold matchCherryTo at h
  obtain ⟨s1, h1, h⟩ := Option.bind_eq_some.mp h
  obtain ⟨s3, h3, h⟩ := Option.bind_eq_some.mp h
  obtain ⟨s4, h4, h⟩ := Option.bind_eq_some.mp h
  obtain ⟨s5, h5, h⟩ := Option.bind_eq_some.mp h
  obtain ⟨s6, h6, h⟩ := Option.bind_eq_some.mp h
  by_cases hc : dropTrailing isReSpace s6 = []
  · rw [if_pos hc] at h
    simp at h
  · rw [if_neg hc] at h
    injection h with h
    subst h
    have hs1 : s1 <:+ s := (stripLit_suffix _ _ _ h1).trans (List.dropWhile_suffix _)
    have hs3 : s3 <:+ s :=
      ((stripLit_suffix _ _ _ h3).trans (optClass_suffix s1)).trans hs1
    have hsuf : s6 <:+ s :=
      (reqSpaces_suffix h6).trans ((stripLit_suffix _ _ _ h5).trans
        ((reqSpaces_suffix h4).trans hs3))
    exact (dropTrailing_prefixOf _ _).isInfix.trans hsuf.isInfix

theorem mem_joinWith_infixOf (sep : Char) :
    ∀ parts : List Str, ∀ p ∈ parts, p <:+: joinWith sep parts := by
  intro parts
  induction parts with
  | nil => simp
  | cons q rest ih =>
    intro p hp
    rcases rest with _ | ⟨q2, r2⟩
    · simp at hp
      subst hp
      exact List.infix_refl _
    · rcases List.mem_cons.mp hp with rfl | hp2
      · simp only [joinWith]
        exact (List.prefix_append p _).isInfix
      · have hrec := ih p hp2
        refine hrec.trans ?_
        simp only [joinWith]
        exact ((List.suffix_cons sep _).trans (List.suffix_append _ _)).isInfix

theorem splitOnChar_mem_infixOf {sep : Char} {s p : Str}
    (h : p ∈ splitOnChar sep s) : p <:+: s := by
  have h2 := mem_joinWith_infixOf sep (splitOnChar sep s) p h
  rwa [joinWith_splitOnChar] at h2

theorem fields_nil : fields [] = [] := rfl

theorem fields_cons (c : Char) (t : Str) :
    fields (c :: t) =
      if isGoSpace c then fields t
      else
        match fields t, t with
        | [], _ => [[c]]
        | h :: r, [] => [c] :: h :: r
        | h :: r, d :: _ =>
          if isGoSpace d then [c] :: h :: r else (c :: h) :: r := rfl

theorem fields_infix_aux (s : Str) :
    (∀ p ∈ fields s, p <:+: s) ∧
    (∀ c t h r, s = c :: t → isGoSpace c = false → fields s = h :: r →
      h <+: s) := by
  induction s with
  | nil =>
    constructor
    · intro p hp
      rw [fields_nil] at hp
      simp at hp
    · intro c t h r hst
      exact absurd hst (by simp)
  | cons c t ih =>
    obtain ⟨ih1, ih2⟩ := ih
    constructor
    · intro p hp
      rw [fields_cons] at hp
      by_cases hc : isGoSpace c = true
      · rw [if_pos hc] at hp
        exact (ih1 p hp).trans (List.infix_cons (List.infix_refl t))
      · rw [if_neg hc] at hp
        rcases hft : fields t with _ | ⟨h1, r1⟩
        · rw [hft] at hp
          simp at hp
          subst hp
          exact (show [c] <+: c :: t from ⟨t, rfl⟩).isInfix
        · rcases t with _ | ⟨d, t3⟩
          · rw [fields_nil] at hft
            exact absurd hft (by simp)
          · rw [hft] at hp
            have hp2 : p ∈ (if isGoSpace d then [c] :: h1 :: r1
                else (c :: h1) :: r1) := hp
            by_cases hd : isGoSpace d = true
            · rw [if_pos hd] at hp2
              rcases List.mem_cons.mp hp2 with rfl | hp3
              · exact (show [c] <+: c :: d :: t3 from ⟨d :: t3, rfl⟩).isInfix
              · have : p <:+: d :: t3 := ih1 p (by rw [hft]; exact hp3)
                exact this.trans (List.infix_cons (List.infix_refl _))
            · rw [if_neg hd] at hp2
              rcases List.mem_cons.mp hp2 with rfl | hp3
              · have hpref : h1 <+: d :: t3 :=
                  ih2 d t3 h1 r1 rfl (by simpa using hd) hft
                obtain ⟨u, hu⟩ := hpref
                exact (show c :: h1 <+: c :: d :: t3 from
                  ⟨u, by rw [List.cons_append, hu]⟩).isInfix
              · have : p <:+: d :: t3 := ih1 p (by rw [hft]; exact List.mem_cons_of_mem _ hp3)
                exact this.trans (List.infix_cons (List.infix_refl _))
    · intro c2 t2 h r hst hc2 hf
      injection hst with e1 e2
      subst e1
      subst e2
      rw [fields_cons] at hf
      rw [if_neg (by simp [hc2])] at hf
      rcases hft : fields t with _ | ⟨h1, r1⟩
      · rw [hft] at hf
        injection hf with hh _
        subst hh
        exact ⟨t, rfl⟩
      · rcases t with _ | ⟨d, t3⟩
        · rw [fields_nil] at hft
          exact absurd hft (by simp)
        · rw [hft] at hf
          have hf2 : (if isGoSpace d then [c] :: h1 :: r1
              else (c :: h1) :: r1) = h :: r := hf
          by_cases hd : isGoSpace d = true
          · rw [if_pos hd] at hf2
            injection hf2 with hh _
            subst hh
            exact ⟨d :: t3, rfl⟩
          · rw [if_neg hd] at hf2
            injection hf2 with hh _
            subst hh
            have hpref : h1 <+: d :: t3 :=
              ih2 d t3 h1 r1 rfl (by simpa using hd) hft
            obtain ⟨u, hu⟩ := hpref
            exact ⟨u, by rw [List.cons_append, hu]⟩

theorem splitBranches_infixOf {cap br : Str} (h : br ∈ splitBranches cap) :
    br <:+: cap := by
  unfold splitBranches at h
  rw [List.mem_flatten] at h
  obtain ⟨l, hl, hbr⟩ := h
  rw [List.mem_map] at hl
  obtain ⟨part, hpart, rfl⟩ := hl
  exact (((fields_infix_aux _).1 br hbr).trans (goTrimSpace_infixOf part)).trans
    (splitOnChar_mem_infixOf hpart)

theorem doubled_of_pfx_trimPfx {P br : Str} (h : P <+: trimPfx P br) :
    (P ++ P) <+: br := by
  unfold trimPfx at h
  by_cases hb : P.isPrefixOf br = true
  · rw [if_pos hb] at h
    obtain ⟨u, hu⟩ := h
    have hbr := eq_append_drop_of_isPrefixOf hb
    rw [← hu] at hbr
    exact ⟨u, by rw [hbr, List.append_assoc]⟩
  · rw [if_neg hb] at h
    exact absurd (List.isPrefixOf_iff_prefix.mpr h) (by simpa using hb)

theorem parse_mem_candidates {labels : List (Option Str)} {e : Str}
    (h : e ∈ ParseTargetBranches labels) :
    ∃ l ∈ labels, e ∈ labelCandidates l := by
  unfold ParseTargetBranches at h
  have h2 := ((dedupeGo_mem [] _ e).mp h).1
  rw [List.mem_flatten] at h2
  obtain ⟨cl, hcl, hecl⟩ := h2
  rw [List.mem_map] at hcl
  obtain ⟨l, hl, rfl⟩ := hcl
  exact ⟨l, hl, hecl⟩

theorem labelCandidates_inv {l : Option Str} {e : Str}
    (h : e ∈ labelCandidates l) :
    ∃ name cap br, l = some name ∧
      matchCherryTo (goTrimSpace name) = some cap ∧
      br ∈ splitBranches cap ∧
      e = trimPfx (str "refs/heads/") (goTrimSpace br) := by
  rcases l with _ | name
  · simp [labelCandidates] at h
  · unfold labelCandidates at h
    have h2 : e ∈ (match matchCherryTo (goTrimSpace name) with
        | none => []
        | some cap =>
          ((splitBranches cap).map
            (fun br => trimPfx (str "refs/heads/") (goTrimSpace br))).filter
            (fun br => decide (br ≠ []))) := h
    rcases hm : matchCherryTo (goTrimSpace name) with _ | cap
    · rw [hm] at h2
      simp at h2
    · rw [hm] at h2
      rw [List.mem_filter] at h2
      obtain ⟨hmap, _⟩ := h2
      rw [List.mem_map] at hmap
      obtain ⟨br, hbr, rfl⟩ := hmap
      exact ⟨name, cap, br, rfl, hm, hbr, rfl⟩

theorem indexOf_cons_self_str (a : Str) (l : List Str) : (a :: l).indexOf a = 0 := by
  rw [List.indexOf_cons]
  simp

theorem indexOf_cons_ne_str {a x : Str} (l : List Str) (h : a ≠ x) :
    (a :: l).indexOf x = l.indexOf x + 1 := by
  rw [List.indexOf_cons]
  have hb : (a == x) = false := by simpa using h
  rw [hb]
  rfl

theorem dedupeGo_pairwise_indexOf (seen l : List Str) :
    (dedupeGo seen l).Pairwise (fun x y => l.indexOf x < l.indexOf y) := by
  induction l generalizing seen with
  | nil => simp [dedupeGo]
  | cons a t ih =>
    rw [dedupeGo]
    by_cases ha : a ∈ seen
    · rw [if_pos ha]
      refine (ih seen).imp_of_mem ?_
      intro x y hx hy hlt
      have hxa : a ≠ x := fun h =>
        ((dedupeGo_nodup seen t).2 x hx) (by rw [← h]; exact ha)
      have hya : a ≠ y := fun h =>
        ((dedupeGo_nodup seen t).2 y hy) (by rw [← h]; exact ha)
      rw [indexOf_cons_ne_str t hxa, indexOf_cons_ne_str t hya]
      omega
    · rw [if_neg ha]
      refine List.pairwise_cons.mpr ⟨?_, ?_⟩
      · intro y hy
        have hya : a ≠ y := fun h =>
          ((dedupeGo_nodup (a :: seen) t).2 y hy)
            (by rw [← h]; exact List.mem_cons_self a seen)
        rw [indexOf_cons_self_str, indexOf_cons_ne_str t hya]
        omega
      · refine (ih (a :: seen)).imp_of_mem ?_
        intro x y hx hy hlt
        have hxa : a ≠ x := fun h =>
          ((dedupeGo_nodup (a :: seen) t).2 x hx)
            (by rw [← h]; exact List.mem_cons_self a seen)
        have hya : a ≠ y := fun h =>
          ((dedupeGo_nodup (a :: seen) t).2 y hy)
            (by rw [← h]; exact List.mem_cons_self a seen)
        rw [indexOf_cons_ne_str t hxa, indexOf_cons_ne_str t hya]
        omega

/-- Counterexample to C3 as stated: a label carrying a doubled
`refs/heads/` prefix yields an entry that still starts with
`refs/heads/`, because `strings.TrimPrefix` strips the prefix once. -/
theorem parse_refs_heads_counterexample :
    ParseTargetBranches [some (str "cherry-pick to refs/heads/refs/heads/foo")] =
      [str "refs/heads/foo"] ∧
    (str "refs/heads/").isPrefixOf (str "refs/heads/foo") = true := by
  decide

/-- C3 (amended).  `ParseTargetBranches` returns a duplicate-free list
in first-seen order across all matching labels: the output is a
sublist of the concatenated candidate stream, contains exactly the
stream's elements, and successive entries have strictly increasing
first-occurrence positions in that stream.  Labels that do not match
the cherry-pick grammar contribute nothing (parsing is a pure filter);
and each candidate has exactly one leading `refs/heads/` stripped, so
an entry can begin with `refs/heads/` only when some label contains
the doubled text `refs/heads/refs/heads/`. -/
theorem parse_target_branches_props (labels : List (Option Str)) :
    (ParseTargetBranches labels).Nodup ∧
    (∀ (pre post : List (Option Str)) (l : Option Str),
      labelCandidates l = [] →
      ParseTargetBranches (pre ++ l :: post) = ParseTargetBranches (pre ++ post)) ∧
    (∀ e ∈ ParseTargetBranches labels,
      (str "refs/heads/").isPrefixOf e = true →
      ∃ s : Str, some s ∈ labels ∧
        containsSub s (str "refs/heads/refs/heads/") = true) ∧
    (ParseTargetBranches labels).Sublist ((labels.map labelCandidates).flatten) ∧
    (∀ e, e ∈ ParseTargetBranches labels ↔
      e ∈ (labels.map labelCandidates).flatten) ∧
    (ParseTargetBranches labels).Pairwise (fun x y =>
      ((labels.map labelCandidates).flatten).indexOf x <
        ((labels.map labelCandidates).flatten).indexOf y) := by
  refine ⟨(dedupeGo_nodup [] _).1, ?_, ?_, dedupeGo_sublist [] _,
    fun e => by rw [ParseTargetBranches, dedupeGo_mem]; simp,
    dedupeGo_pairwise_indexOf [] _⟩
  · intro pre post l hl
    unfold ParseTargetBranches
    rw [List.map_append, List.map_cons, hl, List.map_append,
      List.flatten_append, List.flatten_cons, List.flatten_append,
      List.nil_append]
  · intro e he hpe
    obtain ⟨l, hl, hcand⟩ := parse_mem_candidates he
    obtain ⟨name, cap, br, rfl, hm, hbr, rfl⟩ := labelCandidates_inv hcand
    have hdb : (str "refs/heads/" ++ str "refs/heads/") <+: goTrimSpace br :=
      doubled_of_pfx_trimPfx (List.isPrefixOf_iff_prefix.mp hpe)
    have hinf : (str "refs/heads/" ++ str "refs/heads/") <:+: name :=
      ((hdb.isInfix.trans (goTrimSpace_infixOf br)).trans
        (splitBranches_infixOf hbr)).trans
        ((matchCherryTo_infixOf hm).trans (goTrimSpace_infixOf name))
    refine ⟨name, hl, ?_⟩
    rw [containsSub_iff_isInfix]
    have hcat : str "refs/heads/refs/heads/" =
        str "refs/heads/" ++ str "refs/heads/" := by decide
    rw [hcat]
    exact hinf

/-- Witness for the amended C3: the doubled-prefix entry really does
come from a label containing `refs/heads/refs/heads/`. -/
theorem parse_target_branches_props_witness :
    ∃ s : Str,
      some s ∈ [some (str "cherry-pick to refs/heads/refs/heads/foo")] ∧
      containsSub s (str "refs/heads/refs/heads/") = true :=
  (parse_target_branches_props
      [some (str "cherry-pick to refs/heads/refs/heads/foo")]).2.2.1
    (str "refs/heads/foo") (by decide) (by decide)

end GhApp
